import Mathlib

/-!
# Verification of the spatial game-theory simulation engine

Shallow embedding of the notebook `Térbeli_játékelmélet.ipynb` (Hawk-Dove and
Hawk-Dove-Retaliator games on a toroidal lattice) and proofs about it.

Modelling conventions, stated once here:

* A grid (`table` in the source, a 2-D integer numpy array) is embedded as a
  total function `Int → Int → Nat`; only the values at coordinates in
  `[0, X) × [0, Y)` are meaningful, exactly as only those indices are ever
  produced by the loops of the source.
* numpy float64 payoffs and fitness sums are embedded as exact rationals `ℚ`;
  the separate type `Option ℚ` (`none` = NaN) is used where NaN propagation
  through `np.max` / `np.isclose` is itself the property under study.
* The global numpy pseudo-random generator is embedded by explicit parameters:
  `permOf seed n` models `np.random.permutation(n)` drawn right after
  `np.random.seed(seed)`, and an arbitrary function `pick` models the one
  uniform draw `np.random.permutation(m)[0]` that the update rule performs per
  cell (the draw is an arbitrary value reduced `% m`, which ranges over exactly
  the values `[0, m)` the source can produce).  All theorems about the update
  rule quantify over these parameters, so they hold for every realisable
  random behaviour.
* Python's `%` on integers agrees with `Int.emod` for positive moduli, which
  is what `%` denotes on `Int` in Lean.
-/

/-- `np.isclose` default tolerances: `rtol = 1e-5`. -/
def rtol : ℚ := 1 / 100000

/-- `np.isclose` default tolerances: `atol = 1e-8`. -/
def atol : ℚ := 1 / 100000000

/-- `np.isclose(a, b)` for finite values: `|a - b| <= atol + rtol * |b|`. -/
def isclose (a b : ℚ) : Bool := decide (|a - b| ≤ atol + rtol * |b|)

/-- `np.max` of a list of finite floats: the maximum of a nonempty list
(the source never applies it to an empty array; `0` is a junk value). -/
def maxList (l : List ℚ) : ℚ := (l.max?).getD 0

/-- `np.argwhere(np.isclose(l, m)).flatten()`: the (sorted) list of indices of
entries of `l` that are close to `m`. -/
def argwhereClose (l : List ℚ) (m : ℚ) : List Nat :=
  (List.range l.length).filter (fun k => isclose (l.getD k 0) m)

/-- `moore_neighbourhood` from the notebook: the cell itself, and the list of
its 8 Moore neighbours, each coordinate reduced modulo the grid size
(periodic boundary), in the order of the source. -/
def moore_neighbourhood (x y size_x size_y : Int) : (Int × Int) × List (Int × Int) :=
  let current := (x, y)
  let neigh_idxs := [(x - 1, y + 1), (x, y + 1), (x + 1, y + 1),
                     (x - 1, y), (x + 1, y),
                     (x - 1, y - 1), (x, y - 1), (x + 1, y - 1)]
  (current, neigh_idxs.map (fun p => (p.1 % size_x, p.2 % size_y)))

/-- `von_neumann_neighbourhood` from the notebook: the cell itself and its 4
orthogonal neighbours with periodic boundary, in the order of the source. -/
def von_neumann_neighbourhood (x y size_x size_y : Int) : (Int × Int) × List (Int × Int) :=
  let current := (x, y)
  let neigh_idxs := [(x, y + 1),
                     (x - 1, y), (x + 1, y),
                     (x, y - 1)]
  (current, neigh_idxs.map (fun p => (p.1 % size_x, p.2 % size_y)))

/-- The row-major list of cell coordinates visited by the double loop
`for i in range(X): for j in range(Y):` of `iterate`. -/
def cellsI (X Y : Nat) : List (Int × Int) :=
  ((List.range X).map Int.ofNat) ×ˢ ((List.range Y).map Int.ofNat)

/-- Pointwise update of a two-argument function: the embedding of one
assignment `A[i, j] = v` to a 2-D numpy array. -/
def update2 {α : Type} (A : Int → Int → α) (i j : Int) (v : α) : Int → Int → α :=
  fun a b => if a = i ∧ b = j then v else A a b

/-- The body of the first (fitness) loop of `iterate` for cell `(i, j)`:
`current, neighs = neighbourhood_func(i, j, X, Y)` and then the accumulated
sum `table_s[i,j] += payoff_mat[current_strat, neighs_strat[k]]` over all
neighbours `k`, starting from the value `acc0` that `table_s[i,j]` held. -/
def fitnessBody (table : Int → Int → Nat) (payoff_mat : Nat → Nat → ℚ)
    (nf : Int → Int → Int → Int → (Int × Int) × List (Int × Int))
    (X Y : Nat) (i j : Int) (acc0 : ℚ) : ℚ :=
  let cn := nf i j (X : Int) (Y : Int)
  let current_strat := table cn.1.1 cn.1.2
  let neighs_strat := cn.2.map (fun p => table p.1 p.2)
  neighs_strat.foldl (fun acc s => acc + payoff_mat current_strat s) acc0

/-- The first pass of `iterate`: `table_s = np.zeros(table.shape)` followed by
the double loop accumulating every cell's fitness. -/
def fitness_pass (table : Int → Int → Nat) (payoff_mat : Nat → Nat → ℚ)
    (nf : Int → Int → Int → Int → (Int × Int) × List (Int × Int))
    (X Y : Nat) : Int → Int → ℚ :=
  (cellsI X Y).foldl
    (fun ts ij => update2 ts ij.1 ij.2 (fitnessBody table payoff_mat nf X Y ij.1 ij.2 (ts ij.1 ij.2)))
    (fun _ _ => 0)

/-- The body of the second (update) loop of `iterate` for cell `(i, j)`:
collect self-plus-neighbour coordinates, read their fitness from `table_s`,
take the maximum, list the indices `np.isclose` to it, draw one of them at
random (`pick c % m` models `np.random.permutation(m)[0]`, where `c` is the
row-major cell counter), and return the *current* strategy of the chosen
coordinate. -/
def updateBody (pick : Nat → Nat) (table : Int → Int → Nat) (table_s : Int → Int → ℚ)
    (nf : Int → Int → Int → Int → (Int × Int) × List (Int × Int))
    (X Y : Nat) (i j : Int) : Nat :=
  let cn := nf i j (X : Int) (Y : Int)
  let all_neighs := cn.1 :: cn.2
  let neighs_s := all_neighs.map (fun p => table_s p.1 p.2)
  let max_val := maxList neighs_s
  let max_idx := argwhereClose neighs_s max_val
  let rnd_idx := pick (i.toNat * Y + j.toNat) % max_idx.length
  let max_idx_chosen := max_idx.getD rnd_idx 0
  let local_max_s_coords := all_neighs.getD max_idx_chosen ((0 : Int), (0 : Int))
  table local_max_s_coords.1 local_max_s_coords.2

/-- The second pass of `iterate`: `table_new = np.zeros(table.shape, int)`
followed by the double loop writing every cell's next strategy. -/
def update_pass (pick : Nat → Nat) (table : Int → Int → Nat) (table_s : Int → Int → ℚ)
    (nf : Int → Int → Int → Int → (Int × Int) × List (Int × Int))
    (X Y : Nat) : Int → Int → Nat :=
  (cellsI X Y).foldl
    (fun tn ij => update2 tn ij.1 ij.2 (updateBody pick table table_s nf X Y ij.1 ij.2))
    (fun _ _ => 0)

/-- `iterate` from the notebook: first pass fills `table_s` (the fitness
field), second pass fills `table_new` (the next generation), which is
returned; the input `table` is read but never written. -/
def iterate (pick : Nat → Nat) (table : Int → Int → Nat) (payoff_mat : Nat → Nat → ℚ)
    (nf : Int → Int → Int → Int → (Int × Int) × List (Int × Int))
    (X Y : Nat) : Int → Int → Nat :=
  update_pass pick table (fitness_pass table payoff_mat nf X Y) nf X Y

/-- The fitness of a single cell computed directly from the frozen grid
snapshot: the plain sum, over the neighbour list, of
`payoff_mat[current_strat, neighbour_strat]`.  This is the specification-side
description of the fitness field (spec §4.4). -/
def fitnessAt (table : Int → Int → Nat) (payoff_mat : Nat → Nat → ℚ)
    (nf : Int → Int → Int → Int → (Int × Int) × List (Int × Int))
    (X Y : Nat) (i j : Int) : ℚ :=
  let cn := nf i j (X : Int) (Y : Int)
  (cn.2.map (fun p => payoff_mat (table cn.1.1 cn.1.2) (table p.1 p.2))).sum

/-- The snapshot-semantics fitness field: every cell's value is computed
independently from the unmodified input grid, cells outside the grid are `0`
(the `np.zeros` initialisation). -/
def fitness_snapshot (table : Int → Int → Nat) (payoff_mat : Nat → Nat → ℚ)
    (nf : Int → Int → Int → Int → (Int × Int) × List (Int × Int))
    (X Y : Nat) : Int → Int → ℚ :=
  fun i j => if (i, j) ∈ cellsI X Y then fitnessAt table payoff_mat nf X Y i j else 0

/-- The snapshot semantics of one generation step (spec §4.4-§4.5): a brand
new grid whose every cell is a pure function of the frozen input grid — its
fitness field is `fitness_snapshot` (each value derived only from the input
grid), and each output cell copies a current strategy of the input grid.
No fitness value and no output cell depends on any other output cell. -/
def iterate_snapshot (pick : Nat → Nat) (table : Int → Int → Nat) (payoff_mat : Nat → Nat → ℚ)
    (nf : Int → Int → Int → Int → (Int × Int) × List (Int × Int))
    (X Y : Nat) : Int → Int → Nat :=
  fun i j =>
    if (i, j) ∈ cellsI X Y then
      updateBody pick table (fitness_snapshot table payoff_mat nf X Y) nf X Y i j
    else 0

/-! ## Generic lemmas about the loop embedding -/

/-- A fold of pointwise updates leaves untouched every cell not in the list. -/
theorem foldl_update2_not_mem {α : Type} (v : Int × Int → α → α) :
    ∀ (l : List (Int × Int)) (A0 : Int → Int → α) (c : Int × Int), c ∉ l →
      (l.foldl (fun A ij => update2 A ij.1 ij.2 (v ij (A ij.1 ij.2))) A0) c.1 c.2
        = A0 c.1 c.2 := by
  intro l
  induction l with
  | nil => intro A0 c _; rfl
  | cons d t ih =>
    intro A0 c hc
    have hcd : c ≠ d := fun h => hc (h ▸ List.mem_cons_self d t)
    have hct : c ∉ t := fun h => hc (List.mem_cons_of_mem d h)
    rw [List.foldl_cons, ih _ c hct]
    simp only [update2]
    rw [if_neg]
    intro ⟨h1, h2⟩
    exact hcd (Prod.ext h1 h2)

/-- A fold of pointwise updates over a duplicate-free list writes each listed
cell exactly once: the final value at a listed cell is the update function
applied to the initial value at that cell. -/
theorem foldl_update2_eval {α : Type} (v : Int × Int → α → α) :
    ∀ (l : List (Int × Int)) (A0 : Int → Int → α) (c : Int × Int), c ∈ l → l.Nodup →
      (l.foldl (fun A ij => update2 A ij.1 ij.2 (v ij (A ij.1 ij.2))) A0) c.1 c.2
        = v c (A0 c.1 c.2) := by
  intro l
  induction l with
  | nil => intro _ c hc; exact absurd hc (List.not_mem_nil c)
  | cons d t ih =>
    intro A0 c hc hnd
    rw [List.nodup_cons] at hnd
    rw [List.foldl_cons]
    rcases List.mem_cons.mp hc with hcd | hct
    · subst hcd
      rw [foldl_update2_not_mem v t _ c hnd.1]
      simp [update2]
    · have hcd : c ≠ d := fun h => hnd.1 (h ▸ hct)
      rw [ih _ c hct hnd.2]
      simp only [update2]
      rw [if_neg]
      intro ⟨h1, h2⟩
      exact hcd (Prod.ext h1 h2)

/-- The cell list of the double loop has no duplicates. -/
theorem cellsI_nodup (X Y : Nat) : (cellsI X Y).Nodup := by
  apply List.Nodup.product
  · exact (List.nodup_range X).map (fun a b h => Int.ofNat.inj h)
  · exact (List.nodup_range Y).map (fun a b h => Int.ofNat.inj h)

/-- Membership in the cell list is exactly being in range. -/
theorem mem_cellsI {X Y : Nat} {i j : Int} :
    (i, j) ∈ cellsI X Y ↔ (0 ≤ i ∧ i < X) ∧ (0 ≤ j ∧ j < Y) := by
  unfold cellsI
  rw [List.mem_product]
  simp only [List.mem_map, List.mem_range]
  constructor
  · rintro ⟨⟨a, ha, rfl⟩, ⟨b, hb, rfl⟩⟩
    refine ⟨⟨Int.ofNat_nonneg a, ?_⟩, ⟨Int.ofNat_nonneg b, ?_⟩⟩
    · simpa using ha
    · simpa using hb
  · rintro ⟨⟨hi0, hiX⟩, ⟨hj0, hjY⟩⟩
    refine ⟨⟨i.toNat, ?_, ?_⟩, ⟨j.toNat, ?_, ?_⟩⟩
    · omega
    · simp [Int.toNat_of_nonneg hi0]
    · omega
    · simp [Int.toNat_of_nonneg hj0]

/-- Accumulating `acc += f s` over a list is adding the sum of the images. -/
theorem foldl_add_eq_add_sum {α : Type} (f : α → ℚ) :
    ∀ (l : List α) (a : ℚ), l.foldl (fun acc s => acc + f s) a = a + (l.map f).sum := by
  intro l
  induction l with
  | nil => intro a; simp
  | cons x t ih => intro a; simp [ih, add_assoc]

/-- The accumulated fitness-loop body starting from `0` is exactly the direct
sum `fitnessAt` over the frozen grid. -/
theorem fitnessBody_zero (table : Int → Int → Nat) (payoff_mat : Nat → Nat → ℚ)
    (nf : Int → Int → Int → Int → (Int × Int) × List (Int × Int))
    (X Y : Nat) (i j : Int) :
    fitnessBody table payoff_mat nf X Y i j 0 = fitnessAt table payoff_mat nf X Y i j := by
  unfold fitnessBody fitnessAt
  rw [foldl_add_eq_add_sum, List.map_map, zero_add]
  rfl

/-- The loop-built fitness field equals the snapshot fitness field. -/
theorem fitness_pass_eq_snapshot (table : Int → Int → Nat) (payoff_mat : Nat → Nat → ℚ)
    (nf : Int → Int → Int → Int → (Int × Int) × List (Int × Int)) (X Y : Nat) :
    fitness_pass table payoff_mat nf X Y = fitness_snapshot table payoff_mat nf X Y := by
  funext i j
  unfold fitness_pass fitness_snapshot
  by_cases h : (i, j) ∈ cellsI X Y
  · rw [if_pos h]
    have := foldl_update2_eval
      (fun ij acc => fitnessBody table payoff_mat nf X Y ij.1 ij.2 acc)
      (cellsI X Y) (fun _ _ => 0) (i, j) h (cellsI_nodup X Y)
    simpa using this.trans (fitnessBody_zero table payoff_mat nf X Y i j)
  · rw [if_neg h]
    have := foldl_update2_not_mem
      (fun ij acc => fitnessBody table payoff_mat nf X Y ij.1 ij.2 acc)
      (cellsI X Y) (fun _ _ => 0) (i, j) h
    simpa using this

/-- The update pass evaluates pointwise: each output cell is the loop body at
that cell (reading only the frozen `table` and the given `table_s`). -/
theorem update_pass_pointwise (pick : Nat → Nat) (table : Int → Int → Nat)
    (table_s : Int → Int → ℚ)
    (nf : Int → Int → Int → Int → (Int × Int) × List (Int × Int)) (X Y : Nat) :
    update_pass pick table table_s nf X Y
      = fun i j => if (i, j) ∈ cellsI X Y then updateBody pick table table_s nf X Y i j
                   else 0 := by
  funext i j
  unfold update_pass
  by_cases h : (i, j) ∈ cellsI X Y
  · rw [if_pos h]
    have := foldl_update2_eval
      (fun ij _ => updateBody pick table table_s nf X Y ij.1 ij.2)
      (cellsI X Y) (fun _ _ => 0) (i, j) h (cellsI_nodup X Y)
    simpa using this
  · rw [if_neg h]
    have := foldl_update2_not_mem
      (fun ij _ => updateBody pick table table_s nf X Y ij.1 ij.2)
      (cellsI X Y) (fun _ _ => 0) (i, j) h
    simpa using this

/-- **C1.** Snapshot consistency of one generation step: for every grid,
payoff matrix, neighbourhood function and random behaviour, the two-pass loop
implementation `iterate` coincides with the snapshot semantics
`iterate_snapshot`, in which every cell's fitness is computed solely from the
unmodified input grid and the next generation is a new grid each of whose
cells is a pure function of that frozen snapshot — no cell's fitness or
update depends on an already-updated strategy, and neither the input grid nor
the fitness field is mutated by the step. -/
theorem iterate_eq_iterate_snapshot (pick : Nat → Nat) (table : Int → Int → Nat)
    (payoff_mat : Nat → Nat → ℚ)
    (nf : Int → Int → Int → Int → (Int × Int) × List (Int × Int)) (X Y : Nat) :
    iterate pick table payoff_mat nf X Y = iterate_snapshot pick table payoff_mat nf X Y := by
  unfold iterate iterate_snapshot
  rw [fitness_pass_eq_snapshot, update_pass_pointwise]

/-! ## Neighbourhood lemmas -/

/-- The offset table underlying the Moore neighbour list. -/
def mooreOffsets : List (Int × Int) :=
  [(-1, 1), (0, 1), (1, 1), (-1, 0), (1, 0), (-1, -1), (0, -1), (1, -1)]

/-- The offset table underlying the Von Neumann neighbour list. -/
def vonNeumannOffsets : List (Int × Int) :=
  [(0, 1), (-1, 0), (1, 0), (0, -1)]

theorem moore_eq_offsets (x y X Y : Int) :
    (moore_neighbourhood x y X Y).2
      = mooreOffsets.map (fun d => ((x + d.1) % X, (y + d.2) % Y)) := by
  simp [moore_neighbourhood, mooreOffsets, sub_eq_add_neg]

theorem von_neumann_eq_offsets (x y X Y : Int) :
    (von_neumann_neighbourhood x y X Y).2
      = vonNeumannOffsets.map (fun d => ((x + d.1) % X, (y + d.2) % Y)) := by
  simp [von_neumann_neighbourhood, vonNeumannOffsets, sub_eq_add_neg]

/-- Two shifts by offsets of magnitude at most one land in the same residue
class modulo `X ≥ 3` only if the offsets are equal. -/
theorem emod_add_inj {X x : Int} (hX : 3 ≤ X) {a b : Int} (ha : |a| ≤ 1) (hb : |b| ≤ 1)
    (h : (x + a) % X = (x + b) % X) : a = b := by
  have h0 : (x + a - (x + b)) % X = 0 := Int.emod_emod_of_dvd _ (dvd_refl X) ▸
    (Int.emod_eq_emod_iff_emod_sub_eq_zero.mp h)
  have hd : X ∣ (a - b) := by
    have he : x + a - (x + b) = a - b := by ring
    exact Int.dvd_of_emod_eq_zero (he ▸ h0)
  by_contra hne
  have h1 : 0 < |a - b| := abs_pos.mpr (sub_ne_zero.mpr hne)
  have h2 : X ≤ |a - b| := Int.le_of_dvd h1 ((dvd_abs X (a - b)).mpr hd)
  have ha' := abs_le.mp ha
  have hb' := abs_le.mp hb
  have h3 : |a - b| ≤ 2 := abs_le.mpr ⟨by omega, by omega⟩
  omega

/-- Every coordinate produced by mapping `% X, % Y` lies in `[0,X) × [0,Y)`. -/
theorem mem_mod_map_range {X Y : Int} (hX : 0 < X) (hY : 0 < Y) (l : List (Int × Int)) :
    ∀ p ∈ l.map (fun q => (q.1 % X, q.2 % Y)),
      0 ≤ p.1 ∧ p.1 < X ∧ 0 ≤ p.2 ∧ p.2 < Y := by
  intro p hp
  rcases List.mem_map.mp hp with ⟨q, _, rfl⟩
  exact ⟨Int.emod_nonneg _ (by omega), Int.emod_lt_of_pos _ hX,
         Int.emod_nonneg _ (by omega), Int.emod_lt_of_pos _ hY⟩

theorem moore_nodup {x y X Y : Int} (hX : 3 ≤ X) (hY : 3 ≤ Y) :
    (moore_neighbourhood x y X Y).2.Nodup := by
  rw [moore_eq_offsets]
  have hb : ∀ d ∈ mooreOffsets, |d.1| ≤ 1 ∧ |d.2| ≤ 1 := by decide
  refine List.Nodup.map_on ?_ (by decide)
  intro d1 h1 d2 h2 hf
  obtain ⟨hb11, hb12⟩ := hb d1 h1
  obtain ⟨hb21, hb22⟩ := hb d2 h2
  rw [Prod.ext_iff] at hf ⊢
  exact ⟨emod_add_inj hX hb11 hb21 hf.1, emod_add_inj hY hb12 hb22 hf.2⟩

theorem von_neumann_nodup {x y X Y : Int} (hX : 3 ≤ X) (hY : 3 ≤ Y) :
    (von_neumann_neighbourhood x y X Y).2.Nodup := by
  rw [von_neumann_eq_offsets]
  have hb : ∀ d ∈ vonNeumannOffsets, |d.1| ≤ 1 ∧ |d.2| ≤ 1 := by decide
  refine List.Nodup.map_on ?_ (by decide)
  intro d1 h1 d2 h2 hf
  obtain ⟨hb11, hb12⟩ := hb d1 h1
  obtain ⟨hb21, hb22⟩ := hb d2 h2
  rw [Prod.ext_iff] at hf ⊢
  exact ⟨emod_add_inj hX hb11 hb21 hf.1, emod_add_inj hY hb12 hb22 hf.2⟩

/-- **C5, counterexample.** On a 1×1 grid (`X = Y = 1`, allowed by the
claim's hypothesis `X ≥ 1, Y ≥ 1`) the Moore neighbour list still has 8
entries, but they are all the single cell `(0,0)`, so the returned
coordinates are *not* pairwise distinct; the same happens to the 4 Von
Neumann entries.  The claim as stated is therefore false for `X = Y = 1`. -/
theorem moore_one_by_one_not_nodup :
    (moore_neighbourhood 0 0 1 1).2.length = 8
      ∧ ¬ (moore_neighbourhood 0 0 1 1).2.Nodup
      ∧ ¬ (von_neumann_neighbourhood 0 0 1 1).2.Nodup := by
  refine ⟨rfl, ?_, ?_⟩ <;> decide

/-- **C5, amended.** For every cell `(x,y)` and dimensions `X ≥ 1`, `Y ≥ 1`,
the Moore neighbourhood returns exactly 8 coordinates and the Von Neumann
neighbourhood exactly 4, every returned coordinate lying within
`[0,X) × [0,Y)` (toroidal wraparound, corners and edges included); the
returned coordinates are moreover pairwise distinct whenever `X ≥ 3` and
`Y ≥ 3` (on smaller grids wraparound makes distinct offsets collide). -/
theorem neighbourhood_size_range_nodup (x y : Int) (X Y : Nat) (hX : 1 ≤ X) (hY : 1 ≤ Y) :
    (moore_neighbourhood x y X Y).2.length = 8
      ∧ (von_neumann_neighbourhood x y X Y).2.length = 4
      ∧ (∀ p ∈ (moore_neighbourhood x y X Y).2,
           0 ≤ p.1 ∧ p.1 < (X : Int) ∧ 0 ≤ p.2 ∧ p.2 < (Y : Int))
      ∧ (∀ p ∈ (von_neumann_neighbourhood x y X Y).2,
           0 ≤ p.1 ∧ p.1 < (X : Int) ∧ 0 ≤ p.2 ∧ p.2 < (Y : Int))
      ∧ (3 ≤ X → 3 ≤ Y →
           (moore_neighbourhood x y X Y).2.Nodup
             ∧ (von_neumann_neighbourhood x y X Y).2.Nodup) := by
  have hX' : (0 : Int) < X := by exact_mod_cast hX
  have hY' : (0 : Int) < Y := by exact_mod_cast hY
  refine ⟨by simp [moore_neighbourhood], by simp [von_neumann_neighbourhood], ?_, ?_, ?_⟩
  · rw [moore_eq_offsets]
    intro p hp
    rcases List.mem_map.mp hp with ⟨d, _, rfl⟩
    exact ⟨Int.emod_nonneg _ (by omega), Int.emod_lt_of_pos _ hX',
           Int.emod_nonneg _ (by omega), Int.emod_lt_of_pos _ hY'⟩
  · rw [von_neumann_eq_offsets]
    intro p hp
    rcases List.mem_map.mp hp with ⟨d, _, rfl⟩
    exact ⟨Int.emod_nonneg _ (by omega), Int.emod_lt_of_pos _ hX',
           Int.emod_nonneg _ (by omega), Int.emod_lt_of_pos _ hY'⟩
  · intro h3X h3Y
    have h3X' : (3 : Int) ≤ X := by exact_mod_cast h3X
    have h3Y' : (3 : Int) ≤ Y := by exact_mod_cast h3Y
    exact ⟨moore_nodup h3X' h3Y', von_neumann_nodup h3X' h3Y'⟩

/-- Witness for the amended C5 theorem at `(x,y) = (0,0)` on a 3×3 grid. -/
theorem neighbourhood_size_range_nodup_witness :
    1 ≤ 3 ∧ ((moore_neighbourhood 0 0 3 3).2.length = 8
      ∧ (von_neumann_neighbourhood 0 0 3 3).2.length = 4
      ∧ (∀ p ∈ (moore_neighbourhood 0 0 3 3).2,
           0 ≤ p.1 ∧ p.1 < ((3 : Nat) : Int) ∧ 0 ≤ p.2 ∧ p.2 < ((3 : Nat) : Int))
      ∧ (∀ p ∈ (von_neumann_neighbourhood 0 0 3 3).2,
           0 ≤ p.1 ∧ p.1 < ((3 : Nat) : Int) ∧ 0 ≤ p.2 ∧ p.2 < ((3 : Nat) : Int))
      ∧ (3 ≤ 3 → 3 ≤ 3 →
           (moore_neighbourhood 0 0 3 3).2.Nodup
             ∧ (von_neumann_neighbourhood 0 0 3 3).2.Nodup)) :=
  ⟨by decide, neighbourhood_size_range_nodup 0 0 3 3 (by decide) (by decide)⟩

/-! ## Tie detection -/

theorem isclose_self (a : ℚ) : isclose a a = true := by
  unfold isclose
  rw [decide_eq_true_iff]
  rw [sub_self, abs_zero]
  have h1 : (0 : ℚ) < atol := by norm_num [atol]
  have h2 : (0 : ℚ) ≤ rtol * |a| := by
    have : (0 : ℚ) ≤ rtol := by norm_num [rtol]
    exact mul_nonneg this (abs_nonneg a)
  linarith

theorem maxList_mem {l : List ℚ} (h : l ≠ []) : maxList l ∈ l := by
  unfold maxList
  cases hm : l.max? with
  | none => exact absurd (List.max?_eq_none_iff.mp hm) h
  | some a => simpa using List.max?_mem max_choice hm

/-- The tie set of a nonempty fitness list is never empty: the maximum itself
is a member and `np.isclose` is reflexive on finite values. -/
theorem argwhereClose_max_ne_nil {l : List ℚ} (h : l ≠ []) :
    argwhereClose l (maxList l) ≠ [] := by
  rcases List.mem_iff_getElem.mp (maxList_mem h) with ⟨k, hk, hgk⟩
  have hmem : k ∈ argwhereClose l (maxList l) := by
    unfold argwhereClose
    rw [List.mem_filter, List.mem_range]
    refine ⟨hk, ?_⟩
    rw [List.getD_eq_getElem _ _ hk, hgk]
    exact isclose_self _
  intro hnil
  rw [hnil] at hmem
  exact absurd hmem (List.not_mem_nil k)

/-- Every index in a tie set indexes into the fitness list. -/
theorem argwhereClose_mem_lt {l : List ℚ} {m : ℚ} {k : Nat}
    (hk : k ∈ argwhereClose l m) : k < l.length := by
  unfold argwhereClose at hk
  rw [List.mem_filter, List.mem_range] at hk
  exact hk.1

/-- **C4, counterexample.** Tie detection is *not* within a fixed absolute
tolerance on the `1e-8` scale: in the fitness list `[10^20, 10^20 + 10^10]`
the first entry differs from the maximum by `10^10`, vastly more than any
`1e-8`-scale absolute tolerance, yet `np.isclose`'s relative term
`rtol * |max|` makes it a member of the tie set. -/
theorem isclose_large_difference_tied :
    0 ∈ argwhereClose [(10 : ℚ)^20, 10^20 + 10^10]
          (maxList [(10 : ℚ)^20, 10^20 + 10^10])
      ∧ |(10 : ℚ)^20 - maxList [(10 : ℚ)^20, 10^20 + 10^10]| = 10^10
      ∧ atol < (10 : ℚ)^10 := by
  have hmax : maxList [(10 : ℚ)^20, 10^20 + 10^10] = 10^20 + 10^10 := by
    unfold maxList
    rw [show ([(10 : ℚ)^20, 10^20 + 10^10].max?) = some (max ((10:ℚ)^20) (10^20 + 10^10))
        from rfl]
    rw [Option.getD_some, max_eq_right (by norm_num)]
  have habs : |(10 : ℚ)^20 - (10^20 + 10^10)| = 10^10 := by
    rw [show (10 : ℚ)^20 - (10^20 + 10^10) = -(10^10) by ring, abs_neg,
        abs_of_nonneg (by positivity)]
  refine ⟨?_, by rw [hmax, habs], by norm_num [atol]⟩
  unfold argwhereClose
  rw [List.mem_filter, List.mem_range]
  refine ⟨by norm_num, ?_⟩
  rw [show ([(10 : ℚ)^20, 10^20 + 10^10].getD 0 0) = (10 : ℚ)^20 from rfl, hmax]
  unfold isclose
  rw [decide_eq_true_iff, habs]
  rw [abs_of_nonneg (by positivity : (0:ℚ) ≤ 10^20 + 10^10)]
  norm_num [atol, rtol]

/-- **C4, amended.** Tie detection in the update rule follows `np.isclose`
with its default *combined* tolerance: an index `k` belongs to the tie set
exactly when its fitness differs from the maximum by at most
`atol + rtol * |max|` (`atol = 1e-8`, `rtol = 1e-5`); consequently two
fitness values `a` and `b` whose difference exceeds `atol + rtol * |b|` are
never considered tied — but the tolerance is relative to the magnitude of
`b`, not a fixed absolute bound. -/
theorem tie_detection_tolerance (l : List ℚ) (k : Nat) (hk : k < l.length) :
    (k ∈ argwhereClose l (maxList l)
        ↔ |l.getD k 0 - maxList l| ≤ atol + rtol * |maxList l|)
      ∧ (∀ a b : ℚ, atol + rtol * |b| < |a - b| → isclose a b = false) := by
  constructor
  · unfold argwhereClose
    rw [List.mem_filter, List.mem_range]
    unfold isclose
    rw [decide_eq_true_iff]
    exact ⟨fun h => h.2, fun h => ⟨hk, h⟩⟩
  · intro a b h
    unfold isclose
    rw [decide_eq_false_iff_not]
    exact fun hc => absurd h (not_lt.mpr hc)

/-- Witness for the amended C4 theorem on the fitness list `[0, 1]`. -/
theorem tie_detection_tolerance_witness :
    (0 : Nat) < ([(0 : ℚ), 1].length)
      ∧ ((0 ∈ argwhereClose [(0 : ℚ), 1] (maxList [(0 : ℚ), 1])
            ↔ |[(0 : ℚ), 1].getD 0 0 - maxList [(0 : ℚ), 1]|
                ≤ atol + rtol * |maxList [(0 : ℚ), 1]|)
          ∧ (∀ a b : ℚ, atol + rtol * |b| < |a - b| → isclose a b = false)) :=
  ⟨by decide, tie_detection_tolerance [(0 : ℚ), 1] 0 (by decide)⟩

/-! ## NaN behaviour of the tie-break (float model with `none` = NaN) -/

/-- `np.maximum` on float64 values including NaN: any NaN operand makes the
result NaN; on finite values it is the usual maximum. -/
def fmax : Option ℚ → Option ℚ → Option ℚ
  | some a, some b => some (max a b)
  | _, _ => none

/-- `np.max` over a (nonempty) float64 array: a left fold of `np.maximum`,
so one NaN entry makes the overall maximum NaN. -/
def npMaxF : List (Option ℚ) → Option ℚ
  | [] => none
  | x :: xs => xs.foldl fmax x

/-- `np.isclose` on float64 values: any comparison involving NaN is false
(the default `equal_nan=False`). -/
def iscloseF : Option ℚ → Option ℚ → Bool
  | some a, some b => isclose a b
  | _, _ => false

/-- The tie set (`np.argwhere(np.isclose(neighs_s, max_val)).flatten()`) in
the float model. -/
def argwhereCloseF (l : List (Option ℚ)) (m : Option ℚ) : List Nat :=
  (List.range l.length).filter (fun k => iscloseF (l.getD k none) m)

/-- **C3, counterexample.** For a neighbourhood-plus-self set of 9 cells
(Moore) whose fitness values are all NaN, `np.max` is NaN,
`np.isclose(NaN, NaN)` is false, and the tie set is *empty* — so
`np.random.permutation(0)[0]` has no element `0` to return and the source
raises an `IndexError`: an all-NaN fitness neighbourhood is an error, and
the tie set can be empty, contrary to the claim. -/
theorem all_nan_tie_set_empty :
    argwhereCloseF (List.replicate 9 none) (npMaxF (List.replicate 9 none)) = []
      ∧ (List.replicate 9 (none : Option ℚ)).length = 9 := by
  constructor
  · decide
  · decide

/-- **C3, amended.** A fitness neighbourhood in which all values are equal
(and finite) is not an error: all neighbourhood-plus-self positions are tied
(the tie set is the full index range, hence nonempty) and the random
selection succeeds.  In the NaN-free fitness arithmetic actually produced by
the program's finite payoffs, the tie set of any nonempty fitness list is
never empty, so the update step never fails.  (An all-NaN neighbourhood,
however, empties the tie set — see the counterexample.) -/
theorem tie_set_all_equal_full (q : ℚ) (n : Nat) (hn : 1 ≤ n) :
    argwhereCloseF (List.replicate n (some q)) (npMaxF (List.replicate n (some q)))
        = List.range n
      ∧ ∀ l : List ℚ, l ≠ [] → argwhereClose l (maxList l) ≠ [] := by
  constructor
  · have hfold : ∀ m, List.foldl fmax (some q) (List.replicate m (some q)) = some q := by
      intro m
      induction m with
      | zero => rfl
      | succ k ih =>
        rw [List.replicate_succ, List.foldl_cons,
            show fmax (some q) (some q) = some q by simp [fmax]]
        exact ih
    have hmax : npMaxF (List.replicate n (some q)) = some q := by
      obtain ⟨m, rfl⟩ : ∃ m, n = m + 1 := ⟨n - 1, by omega⟩
      rw [List.replicate_succ]
      exact hfold m
    unfold argwhereCloseF
    rw [hmax, List.length_replicate]
    apply List.filter_eq_self.mpr
    intro k hk
    rw [List.getD_eq_getElem _ _ (by simpa using List.mem_range.mp hk)]
    rw [List.getElem_replicate]
    exact isclose_self q
  · intro l hl
    exact argwhereClose_max_ne_nil hl

/-- Witness for the amended C3 theorem: three equal fitness values `5`, and
the concrete fitness list `[1, 2]`. -/
theorem tie_set_all_equal_full_witness :
    1 ≤ 3
      ∧ (argwhereCloseF (List.replicate 3 (some (5 : ℚ)))
            (npMaxF (List.replicate 3 (some (5 : ℚ)))) = List.range 3
          ∧ ∀ l : List ℚ, l ≠ [] → argwhereClose l (maxList l) ≠ []) :=
  ⟨by decide, tie_set_all_equal_full 5 3 (by decide)⟩

/-! ## The update rule copies an existing strategy (C7) -/

/-- Every Moore neighbour coordinate lies in `[0,X) × [0,Y)`. -/
theorem moore_mem_range {X Y : Nat} (hX : 1 ≤ X) (hY : 1 ≤ Y) (x y : Int) :
    ∀ p ∈ (moore_neighbourhood x y X Y).2,
      0 ≤ p.1 ∧ p.1 < (X : Int) ∧ 0 ≤ p.2 ∧ p.2 < (Y : Int) := by
  have hX' : (0 : Int) < X := by exact_mod_cast hX
  have hY' : (0 : Int) < Y := by exact_mod_cast hY
  rw [moore_eq_offsets]
  intro p hp
  rcases List.mem_map.mp hp with ⟨d, _, rfl⟩
  exact ⟨Int.emod_nonneg _ (by omega), Int.emod_lt_of_pos _ hX',
         Int.emod_nonneg _ (by omega), Int.emod_lt_of_pos _ hY'⟩

/-- Every Von Neumann neighbour coordinate lies in `[0,X) × [0,Y)`. -/
theorem von_neumann_mem_range {X Y : Nat} (hX : 1 ≤ X) (hY : 1 ≤ Y) (x y : Int) :
    ∀ p ∈ (von_neumann_neighbourhood x y X Y).2,
      0 ≤ p.1 ∧ p.1 < (X : Int) ∧ 0 ≤ p.2 ∧ p.2 < (Y : Int) := by
  have hX' : (0 : Int) < X := by exact_mod_cast hX
  have hY' : (0 : Int) < Y := by exact_mod_cast hY
  rw [von_neumann_eq_offsets]
  intro p hp
  rcases List.mem_map.mp hp with ⟨d, _, rfl⟩
  exact ⟨Int.emod_nonneg _ (by omega), Int.emod_lt_of_pos _ hX',
         Int.emod_nonneg _ (by omega), Int.emod_lt_of_pos _ hY'⟩

/-- The update-loop body always returns the current strategy of some position
in the neighbourhood-plus-self list of its cell, whatever the fitness field,
the neighbourhood function and the random draw. -/
theorem updateBody_copies (pick : Nat → Nat) (table : Int → Int → Nat)
    (table_s : Int → Int → ℚ)
    (nf : Int → Int → Int → Int → (Int × Int) × List (Int × Int))
    (X Y : Nat) (i j : Int) :
    ∃ p ∈ (nf i j (X : Int) (Y : Int)).1 :: (nf i j (X : Int) (Y : Int)).2,
      updateBody pick table table_s nf X Y i j = table p.1 p.2 := by
  set cn := nf i j (X : Int) (Y : Int) with hcn
  set all_neighs := cn.1 :: cn.2 with hall
  set neighs_s := all_neighs.map (fun p => table_s p.1 p.2) with hns
  have hne : neighs_s ≠ [] := by simp [hns, hall]
  set max_idx := argwhereClose neighs_s (maxList neighs_s) with hmi
  have hlen : 0 < max_idx.length :=
    List.length_pos.mpr (argwhereClose_max_ne_nil hne)
  set rnd_idx := pick (i.toNat * Y + j.toNat) % max_idx.length with hri
  have hrlt : rnd_idx < max_idx.length := Nat.mod_lt _ hlen
  have hchos_mem : max_idx.getD rnd_idx 0 ∈ max_idx := by
    rw [List.getD_eq_getElem _ _ hrlt]
    exact List.getElem_mem _
  have hclt : max_idx.getD rnd_idx 0 < all_neighs.length := by
    have h := argwhereClose_mem_lt hchos_mem
    simpa [hns] using h
  refine ⟨all_neighs.getD (max_idx.getD rnd_idx 0) (0, 0), ?_, ?_⟩
  · rw [List.getD_eq_getElem _ _ hclt]
    exact List.getElem_mem _
  · rfl

/-- **C7.** For every grid, payoff matrix, neighbourhood function and random
behaviour, the strategy assigned to an in-range cell `(i,j)` by one
generation step is the current strategy of some position in the cell's
neighbourhood-plus-self set; consequently, for the program's neighbourhood
functions (Moore or Von Neumann), every label in the output grid already
occurs in the input grid at an in-range position and stays within `[0, S)`
whenever all input labels do. -/
theorem iterate_copies_neighbourhood_strategy (pick : Nat → Nat)
    (table : Int → Int → Nat) (payoff_mat : Nat → Nat → ℚ)
    (nf : Int → Int → Int → Int → (Int × Int) × List (Int × Int))
    (X Y : Nat) (i j : Int) (hij : (i, j) ∈ cellsI X Y) :
    (∃ p ∈ (nf i j (X : Int) (Y : Int)).1 :: (nf i j (X : Int) (Y : Int)).2,
        iterate pick table payoff_mat nf X Y i j = table p.1 p.2)
      ∧ ((nf = moore_neighbourhood ∨ nf = von_neumann_neighbourhood) →
          (∃ a b : Int, 0 ≤ a ∧ a < (X : Int) ∧ 0 ≤ b ∧ b < (Y : Int) ∧
              iterate pick table payoff_mat nf X Y i j = table a b)
            ∧ ∀ S : Nat,
                (∀ a b : Int, 0 ≤ a → a < (X : Int) → 0 ≤ b → b < (Y : Int) →
                  table a b < S) →
                iterate pick table payoff_mat nf X Y i j < S) := by
  have hij' := mem_cellsI.mp hij
  have hX : 1 ≤ X := by
    rcases hij'.1 with ⟨h0, h1⟩
    by_contra h
    interval_cases X
    omega
  have hY : 1 ≤ Y := by
    rcases hij'.2 with ⟨h0, h1⟩
    by_contra h
    interval_cases Y
    omega
  have hval : iterate pick table payoff_mat nf X Y i j
      = updateBody pick table (fitness_pass table payoff_mat nf X Y) nf X Y i j := by
    unfold iterate
    rw [update_pass_pointwise]
    simp [hij]
  obtain ⟨p, hp, hpe⟩ :=
    updateBody_copies pick table (fitness_pass table payoff_mat nf X Y) nf X Y i j
  refine ⟨⟨p, hp, hval.trans hpe⟩, ?_⟩
  intro hnf
  have hpr : 0 ≤ p.1 ∧ p.1 < (X : Int) ∧ 0 ≤ p.2 ∧ p.2 < (Y : Int) := by
    rcases List.mem_cons.mp hp with h1 | h2
    · rcases hnf with rfl | rfl
      · rw [show (moore_neighbourhood i j (X : Int) (Y : Int)).1 = (i, j) from rfl] at h1
        rw [h1]
        exact ⟨hij'.1.1, hij'.1.2, hij'.2.1, hij'.2.2⟩
      · rw [show (von_neumann_neighbourhood i j (X : Int) (Y : Int)).1 = (i, j) from rfl] at h1
        rw [h1]
        exact ⟨hij'.1.1, hij'.1.2, hij'.2.1, hij'.2.2⟩
    · rcases hnf with rfl | rfl
      · exact moore_mem_range hX hY i j p h2
      · exact von_neumann_mem_range hX hY i j p h2
  constructor
  · exact ⟨p.1, p.2, hpr.1, hpr.2.1, hpr.2.2.1, hpr.2.2.2, hval.trans hpe⟩
  · intro S hS
    rw [hval.trans hpe]
    exact hS p.1 p.2 hpr.1 hpr.2.1 hpr.2.2.1 hpr.2.2.2

/-- Witness for C7 at cell `(0,0)` of a 2×2 grid with the Moore
neighbourhood. -/
theorem iterate_copies_neighbourhood_strategy_witness :
    ((0 : Int), (0 : Int)) ∈ cellsI 2 2
      ∧ ((∃ p ∈ (moore_neighbourhood 0 0 ((2 : Nat) : Int) ((2 : Nat) : Int)).1 ::
              (moore_neighbourhood 0 0 ((2 : Nat) : Int) ((2 : Nat) : Int)).2,
            iterate (fun _ => 0) (fun _ _ => 1) (fun _ _ => 0) moore_neighbourhood 2 2 0 0
              = (fun _ _ => (1 : Nat)) p.1 p.2)
          ∧ ((moore_neighbourhood = moore_neighbourhood
                ∨ moore_neighbourhood = von_neumann_neighbourhood) →
              (∃ a b : Int, 0 ≤ a ∧ a < ((2 : Nat) : Int) ∧ 0 ≤ b ∧ b < ((2 : Nat) : Int) ∧
                  iterate (fun _ => 0) (fun _ _ => 1) (fun _ _ => 0) moore_neighbourhood 2 2 0 0
                    = (fun _ _ => (1 : Nat)) a b)
                ∧ ∀ S : Nat,
                    (∀ a b : Int, 0 ≤ a → a < ((2 : Nat) : Int) → 0 ≤ b → b < ((2 : Nat) : Int) →
                      (fun _ _ => (1 : Nat)) a b < S) →
                    iterate (fun _ => 0) (fun _ _ => 1) (fun _ _ => 0) moore_neighbourhood 2 2 0 0
                      < S)) :=
  ⟨by decide,
   iterate_copies_neighbourhood_strategy (fun _ => 0) (fun _ _ => 1) (fun _ _ => 0)
     moore_neighbourhood 2 2 0 0 (by decide)⟩

/-! ## The fitness sum (C8) -/

/-- Shifting an in-range coordinate by an offset of magnitude at most one
returns to itself modulo `X ≥ 2` only for the zero offset. -/
theorem emod_add_eq_self_imp {X x a : Int} (hX : 2 ≤ X) (ha : |a| ≤ 1)
    (h0 : 0 ≤ x) (hx : x < X) (h : (x + a) % X = x) : a = 0 := by
  have hxx : x % X = x := Int.emod_eq_of_lt h0 hx
  have h' : (x + a) % X = (x + 0) % X := by rw [add_zero, hxx]; exact h
  have h0' : (x + a - (x + 0)) % X = 0 := Int.emod_eq_emod_iff_emod_sub_eq_zero.mp h'
  have hd : X ∣ a := by
    have he : x + a - (x + 0) = a := by ring
    exact Int.dvd_of_emod_eq_zero (he ▸ h0')
  by_contra hne
  have h1 : 0 < |a| := abs_pos.mpr hne
  have h2 : X ≤ |a| := Int.le_of_dvd h1 ((dvd_abs X a).mpr hd)
  omega

/-- On a grid with both dimensions at least 2, the Moore neighbour list of an
in-range cell never contains the cell itself. -/
theorem self_not_mem_moore {X Y : Nat} (h2X : 2 ≤ X) (h2Y : 2 ≤ Y) {i j : Int}
    (hi : 0 ≤ i ∧ i < (X : Int)) (hj : 0 ≤ j ∧ j < (Y : Int)) :
    (i, j) ∉ (moore_neighbourhood i j (X : Int) (Y : Int)).2 := by
  have h2X' : (2 : Int) ≤ X := by exact_mod_cast h2X
  have h2Y' : (2 : Int) ≤ Y := by exact_mod_cast h2Y
  rw [moore_eq_offsets]
  intro hmem
  rcases List.mem_map.mp hmem with ⟨d, hd, heq⟩
  have hb : ∀ d ∈ mooreOffsets, |d.1| ≤ 1 ∧ |d.2| ≤ 1 := by decide
  obtain ⟨hb1, hb2⟩ := hb d hd
  rw [Prod.ext_iff] at heq
  have hd1 : d.1 = 0 := emod_add_eq_self_imp h2X' hb1 hi.1 hi.2 heq.1
  have hd2 : d.2 = 0 := emod_add_eq_self_imp h2Y' hb2 hj.1 hj.2 heq.2
  have hzero : d = ((0 : Int), (0 : Int)) := Prod.ext_iff.mpr ⟨hd1, hd2⟩
  rw [hzero] at hd
  exact absurd hd (by decide)

/-- On a grid with both dimensions at least 2, the Von Neumann neighbour list
of an in-range cell never contains the cell itself. -/
theorem self_not_mem_von_neumann {X Y : Nat} (h2X : 2 ≤ X) (h2Y : 2 ≤ Y) {i j : Int}
    (hi : 0 ≤ i ∧ i < (X : Int)) (hj : 0 ≤ j ∧ j < (Y : Int)) :
    (i, j) ∉ (von_neumann_neighbourhood i j (X : Int) (Y : Int)).2 := by
  have h2X' : (2 : Int) ≤ X := by exact_mod_cast h2X
  have h2Y' : (2 : Int) ≤ Y := by exact_mod_cast h2Y
  rw [von_neumann_eq_offsets]
  intro hmem
  rcases List.mem_map.mp hmem with ⟨d, hd, heq⟩
  have hb : ∀ d ∈ vonNeumannOffsets, |d.1| ≤ 1 ∧ |d.2| ≤ 1 := by decide
  obtain ⟨hb1, hb2⟩ := hb d hd
  rw [Prod.ext_iff] at heq
  have hd1 : d.1 = 0 := emod_add_eq_self_imp h2X' hb1 hi.1 hi.2 heq.1
  have hd2 : d.2 = 0 := emod_add_eq_self_imp h2Y' hb2 hj.1 hj.2 heq.2
  have hzero : d = ((0 : Int), (0 : Int)) := Prod.ext_iff.mpr ⟨hd1, hd2⟩
  rw [hzero] at hd
  exact absurd hd (by decide)

/-- **C8, counterexample.** On a 1×1 grid, every one of the 8 Moore
"neighbour" coordinates of cell `(0,0)` wraps around to the cell's own
position, so the fitness sum consists of 8 copies of the cell's payoff
against itself: with `payoff[s][s] = 1` the fitness is `8`, even though the
claim says the payoff against the cell's own position is never included. -/
theorem fitness_1x1_includes_self :
    fitness_pass (fun _ _ => 0) (fun _ _ => (1 : ℚ)) moore_neighbourhood 1 1 0 0 = 8
      ∧ (moore_neighbourhood 0 0 1 1).2 = List.replicate 8 ((0 : Int), (0 : Int)) := by
  constructor
  · rw [fitness_pass_eq_snapshot]
    simp only [fitness_snapshot]
    rw [if_pos (show ((0 : Int), (0 : Int)) ∈ cellsI 1 1 by decide)]
    simp [fitnessAt, moore_neighbourhood]
    norm_num
  · decide

/-- **C8, amended.** For every in-range cell, the fitness computed by the
first pass of `iterate` is the sum of `payoff[current_cell_strategy]
[neighbour_strategy]` over *exactly* the 8 (Moore) or 4 (Von Neumann)
neighbour coordinates returned by the neighbourhood function; whenever both
grid dimensions are at least 2 the returned neighbour coordinates exclude
the cell's own position, so the cell's payoff against itself at its own
position is not included in the sum (on 1×1-wide grids the wraparound makes
neighbours coincide with the cell itself and its self-payoff is summed). -/
theorem fitness_is_neighbour_sum (table : Int → Int → Nat) (payoff_mat : Nat → Nat → ℚ)
    (X Y : Nat) (i j : Int) (hij : (i, j) ∈ cellsI X Y) :
    (fitness_pass table payoff_mat moore_neighbourhood X Y i j
        = ((moore_neighbourhood i j (X : Int) (Y : Int)).2.map
            (fun p => payoff_mat (table i j) (table p.1 p.2))).sum)
      ∧ (fitness_pass table payoff_mat von_neumann_neighbourhood X Y i j
          = ((von_neumann_neighbourhood i j (X : Int) (Y : Int)).2.map
              (fun p => payoff_mat (table i j) (table p.1 p.2))).sum)
      ∧ (moore_neighbourhood i j (X : Int) (Y : Int)).2.length = 8
      ∧ (von_neumann_neighbourhood i j (X : Int) (Y : Int)).2.length = 4
      ∧ (2 ≤ X → 2 ≤ Y →
          (i, j) ∉ (moore_neighbourhood i j (X : Int) (Y : Int)).2
            ∧ (i, j) ∉ (von_neumann_neighbourhood i j (X : Int) (Y : Int)).2) := by
  have hij' := mem_cellsI.mp hij
  refine ⟨?_, ?_, by simp [moore_neighbourhood], by simp [von_neumann_neighbourhood], ?_⟩
  · rw [fitness_pass_eq_snapshot]
    simp only [fitness_snapshot]
    rw [if_pos hij]
    rfl
  · rw [fitness_pass_eq_snapshot]
    simp only [fitness_snapshot]
    rw [if_pos hij]
    rfl
  · intro h2X h2Y
    exact ⟨self_not_mem_moore h2X h2Y hij'.1 hij'.2,
           self_not_mem_von_neumann h2X h2Y hij'.1 hij'.2⟩

/-- Witness for the amended C8 theorem at cell `(1,0)` of a 2×3 grid. -/
theorem fitness_is_neighbour_sum_witness :
    ((1 : Int), (0 : Int)) ∈ cellsI 2 3
      ∧ ((fitness_pass (fun _ _ => 0) (fun _ _ => (1 : ℚ)) moore_neighbourhood 2 3 1 0
            = ((moore_neighbourhood 1 0 ((2 : Nat) : Int) ((3 : Nat) : Int)).2.map
                (fun p => (fun _ _ => (1 : ℚ)) ((fun _ _ => (0 : Nat)) (1 : Int) (0 : Int))
                  ((fun _ _ => (0 : Nat)) p.1 p.2))).sum)
          ∧ (fitness_pass (fun _ _ => 0) (fun _ _ => (1 : ℚ)) von_neumann_neighbourhood 2 3 1 0
              = ((von_neumann_neighbourhood 1 0 ((2 : Nat) : Int) ((3 : Nat) : Int)).2.map
                  (fun p => (fun _ _ => (1 : ℚ)) ((fun _ _ => (0 : Nat)) (1 : Int) (0 : Int))
                    ((fun _ _ => (0 : Nat)) p.1 p.2))).sum)
          ∧ (moore_neighbourhood 1 0 ((2 : Nat) : Int) ((3 : Nat) : Int)).2.length = 8
          ∧ (von_neumann_neighbourhood 1 0 ((2 : Nat) : Int) ((3 : Nat) : Int)).2.length = 4
          ∧ (2 ≤ 2 → 2 ≤ 3 →
              ((1 : Int), (0 : Int)) ∉ (moore_neighbourhood 1 0 ((2 : Nat) : Int) ((3 : Nat) : Int)).2
                ∧ ((1 : Int), (0 : Int)) ∉
                    (von_neumann_neighbourhood 1 0 ((2 : Nat) : Int) ((3 : Nat) : Int)).2)) :=
  ⟨by decide,
   fitness_is_neighbour_sum (fun _ _ => 0) (fun _ _ => 1) 2 3 1 0 (by decide)⟩

/-! ## Grid initialisation (`generate_table`) -/

/-- The Python slice `l[0::s]`: every `s`-th element of `l` starting at the
head (`l[i::s]` is embedded as `everyNth (l.drop i) s`). -/
def everyNth {α : Type} : List α → Nat → List α
  | [], _ => []
  | x :: xs, s => x :: everyNth (xs.drop (s - 1)) s
termination_by l _ => l.length
decreasing_by
  simp only [List.length_drop, List.length_cons]
  omega

/-- `generate_table` from the notebook.  The global numpy random state is an
explicit `rngState` argument; `np.random.seed(0)` overwrites it with the
constant `0` before `permOf` (the model of `np.random.permutation`) draws the
index permutation `rnd_idxs` of the flattened board.  The loop
`for i in range(num_strats): table[rnd_idxs[i::num_strats]] = i` is the fold
below; the board is kept flattened (`reshape` only changes the shape). -/
def generate_table (permOf : Nat → Nat → List Nat) (rngState : Nat)
    (size_x size_y : Nat) (num_strats : Nat) : List Nat :=
  let n := size_x * size_y
  let rngState := 0
  let rnd_idxs := permOf rngState n
  (List.range num_strats).foldl
    (fun table i => (everyNth (rnd_idxs.drop i) num_strats).foldl
        (fun t p => t.set p i) table)
    (List.replicate n 0)

theorem getD_drop {α : Type} (l : List α) (k m : Nat) (d : α) :
    (l.drop k).getD m d = l.getD (k + m) d := by
  by_cases h : k + m < l.length
  · have h2 : m < (l.drop k).length := by
      rw [List.length_drop]; omega
    rw [List.getD_eq_getElem _ _ h2, List.getD_eq_getElem _ _ h, List.getElem_drop]
  · have h2 : (l.drop k).length ≤ m := by
      rw [List.length_drop]; omega
    rw [List.getD_eq_default _ _ h2, List.getD_eq_default _ _ (by omega)]

theorem everyNth_length {α : Type} (s : Nat) (hs : 1 ≤ s) :
    ∀ (n : Nat) (l : List α), l.length ≤ n →
      (everyNth l s).length = (l.length + s - 1) / s := by
  intro n
  induction n with
  | zero =>
    intro l hl
    have : l = [] := List.length_eq_zero.mp (by omega)
    subst this
    rw [everyNth]
    simp [Nat.div_eq_of_lt (show s - 1 < s by omega)]
  | succ n ih =>
    intro l hl
    match l with
    | [] =>
      rw [everyNth]
      simp [Nat.div_eq_of_lt (show s - 1 < s by omega)]
    | x :: xs =>
      simp only [List.length_cons] at hl
      rw [everyNth, List.length_cons, List.length_cons]
      rw [ih (xs.drop (s - 1)) (by rw [List.length_drop]; omega)]
      rw [List.length_drop]
      have hgoal : (xs.length + 1 + s - 1) / s = xs.length / s + 1 := by
        have : xs.length + 1 + s - 1 = xs.length + s := by omega
        rw [this, Nat.add_div_right _ (by omega)]
      rw [hgoal]
      by_cases hc : s - 1 ≤ xs.length
      · have : xs.length - (s - 1) + s - 1 = xs.length := by omega
        rw [this]
      · have h1 : xs.length - (s - 1) = 0 := by omega
        rw [h1, zero_add]
        rw [Nat.div_eq_of_lt (show s - 1 < s by omega),
            Nat.div_eq_of_lt (show xs.length < s by omega)]

theorem everyNth_getD (s : Nat) (hs : 1 ≤ s) :
    ∀ (n : Nat) (l : List Nat) (m : Nat), l.length ≤ n →
      m < (everyNth l s).length → (everyNth l s).getD m 0 = l.getD (m * s) 0 := by
  intro n
  induction n with
  | zero =>
    intro l m hl hm
    have : l = [] := List.length_eq_zero.mp (by omega)
    subst this
    rw [everyNth] at hm
    simp at hm
  | succ n ih =>
    intro l m hl hm
    match l with
    | [] =>
      rw [everyNth] at hm
      simp at hm
    | x :: xs =>
      simp only [List.length_cons] at hl
      rw [everyNth] at hm ⊢
      match m with
      | 0 => simp
      | m + 1 =>
        rw [List.length_cons] at hm
        have hm' : m < (everyNth (xs.drop (s - 1)) s).length := by omega
        rw [show ((x :: everyNth (xs.drop (s - 1)) s).getD (m + 1) 0)
              = (everyNth (xs.drop (s - 1)) s).getD m 0 from rfl]
        rw [ih (xs.drop (s - 1)) m (by rw [List.length_drop]; omega) hm']
        rw [getD_drop]
        have harith : (s - 1) + m * s = (m + 1) * s - 1 := by
          have : (m + 1) * s = m * s + s := by ring
          omega
        rw [harith]
        have harith2 : (m + 1) * s = ((m + 1) * s - 1) + 1 := by
          have hpos : 1 ≤ (m + 1) * s := by
            calc 1 = 1 * 1 := by norm_num
            _ ≤ (m + 1) * s := Nat.mul_le_mul (by omega) hs
          omega
        rw [show ((x :: xs).getD ((m + 1) * s) 0)
              = xs.getD ((m + 1) * s - 1) 0 by rw [harith2]; rfl]

theorem foldl_set_length (v : Nat) :
    ∀ (ps : List Nat) (t : List Nat),
      (ps.foldl (fun t p => t.set p v) t).length = t.length := by
  intro ps
  induction ps with
  | nil => intro t; rfl
  | cons p ps ih =>
    intro t
    rw [List.foldl_cons, ih, List.length_set]

/-- Writing the same value `v` at every position of `ps` leaves a cell `q`
holding `v` if `q ∈ ps` and its old value otherwise. -/
theorem foldl_set_getD (v : Nat) :
    ∀ (ps : List Nat) (t : List Nat) (q : Nat), q < t.length →
      (ps.foldl (fun t p => t.set p v) t).getD q 0
        = if q ∈ ps then v else t.getD q 0 := by
  intro ps
  induction ps with
  | nil => intro t q _; simp
  | cons p ps ih =>
    intro t q hq
    rw [List.foldl_cons, ih (t.set p v) q (by rw [List.length_set]; exact hq)]
    by_cases hmem : q ∈ ps
    · simp [hmem, List.mem_cons]
    · have hset : (t.set p v).getD q 0 = if p = q then v else t.getD q 0 := by
        rw [List.getD_eq_getElem _ _ (by rw [List.length_set]; exact hq),
            List.getElem_set, List.getD_eq_getElem _ _ hq]
      rw [if_neg hmem, hset]
      by_cases hpq : p = q
      · subst hpq
        simp [List.mem_cons]
      · rw [if_neg hpq, if_neg]
        rw [List.mem_cons]
        push_neg
        exact ⟨fun h => hpq h.symm, hmem⟩

theorem outer_foldl_length (w : Nat → List Nat) :
    ∀ (is : List Nat) (t : List Nat),
      (is.foldl (fun table i => (w i).foldl (fun t p => t.set p i) table) t).length
        = t.length := by
  intro is
  induction is with
  | nil => intro t; rfl
  | cons i is ih =>
    intro t
    rw [List.foldl_cons, ih, foldl_set_length]

/-- If exactly one element of a list satisfies a predicate (up to equality),
`find?` returns it. -/
theorem find?_unique {α : Type} {p : α → Bool} :
    ∀ {l : List α} {x : α}, x ∈ l → p x = true → (∀ y ∈ l, p y = true → y = x) →
      l.find? p = some x := by
  intro l
  induction l with
  | nil => intro x hx; exact absurd hx (List.not_mem_nil x)
  | cons d t ih =>
    intro x hx hpx huniq
    by_cases hpd : p d = true
    · have hdx : d = x := huniq d (List.mem_cons_self d t) hpd
      rw [List.find?_cons_of_pos _ hpd, hdx]
    · have hxt : x ∈ t := by
        rcases List.mem_cons.mp hx with h | h
        · exact absurd (h ▸ hpx) (h ▸ hpd)
        · exact h
      rw [List.find?_cons_of_neg _ hpd]
      exact ih hxt hpx (fun y hy hpy => huniq y (List.mem_cons_of_mem d hy) hpy)

/-- The outer strategy loop, evaluated at one cell: the cell's final value is
determined by the last strategy whose slice writes it (or the initial value
if none does). -/
theorem outer_foldl_getD (w : Nat → List Nat) :
    ∀ (is : List Nat) (t : List Nat) (q : Nat), q < t.length →
      (is.foldl (fun table i => (w i).foldl (fun t p => t.set p i) table) t).getD q 0
        = (is.reverse.find? (fun i => decide (q ∈ w i))).getD (t.getD q 0) := by
  intro is
  induction is with
  | nil => intro t q _; simp
  | cons i is ih =>
    intro t q hq
    rw [List.foldl_cons,
        ih ((w i).foldl (fun t p => t.set p i) t) q (by rw [foldl_set_length]; exact hq)]
    rw [List.reverse_cons, List.find?_append]
    cases hfind : is.reverse.find? (fun i => decide (q ∈ w i)) with
    | some j => simp
    | none =>
      rw [Option.none_or, Option.getD_none]
      rw [foldl_set_getD _ _ _ _ hq]
      by_cases hmem : q ∈ w i
      · rw [if_pos hmem]
        rw [List.find?_cons_of_pos _ (by simpa using hmem)]
        simp
      · rw [if_neg hmem]
        rw [List.find?_cons_of_neg _ (by simpa using hmem)]
        simp

theorem lt_everyNth_length_iff {s : Nat} (hs : 1 ≤ s) (l : List Nat) (m : Nat) :
    m < (everyNth l s).length ↔ m * s < l.length := by
  rw [everyNth_length s hs l.length l (le_refl _)]
  have h1 : m + 1 ≤ (l.length + s - 1) / s ↔ (m + 1) * s ≤ l.length + s - 1 :=
    Nat.le_div_iff_mul_le (by omega)
  have h2 : (m + 1) * s = m * s + s := by ring
  constructor
  · intro h
    have h3 := h1.mp (by omega)
    rw [h2] at h3
    omega
  · intro h
    have h3 : (m + 1) * s ≤ l.length + s - 1 := by rw [h2]; omega
    have h4 := h1.mpr h3
    omega

theorem mem_everyNth_iff {s : Nat} (hs : 1 ≤ s) (l : List Nat) (q : Nat) :
    q ∈ everyNth l s ↔ ∃ m, m * s < l.length ∧ l.getD (m * s) 0 = q := by
  constructor
  · intro hmem
    rcases List.mem_iff_getElem.mp hmem with ⟨k, hk, hgk⟩
    refine ⟨k, (lt_everyNth_length_iff hs l k).mp hk, ?_⟩
    rw [← everyNth_getD s hs l.length l k (le_refl _) hk]
    rw [List.getD_eq_getElem _ _ hk]
    exact hgk
  · rintro ⟨m, hms, hget⟩
    have hk : m < (everyNth l s).length := (lt_everyNth_length_iff hs l m).mpr hms
    rw [List.mem_iff_getElem]
    refine ⟨m, hk, ?_⟩
    rw [← List.getD_eq_getElem (everyNth l s) 0 hk]
    rw [everyNth_getD s hs l.length l m (le_refl _) hk]
    exact hget

theorem generate_table_length (permOf : Nat → Nat → List Nat) (r X Y S : Nat) :
    (generate_table permOf r X Y S).length = X * Y := by
  show ((List.range S).foldl
      (fun table i => (everyNth ((permOf 0 (X * Y)).drop i) S).foldl
          (fun t p => t.set p i) table)
      (List.replicate (X * Y) 0)).length = X * Y
  rw [outer_foldl_length, List.length_replicate]

/-- Elementwise characterisation of the initial board: a permutation position
`k` holds the board position `rnd_idxs[k]`, which receives strategy `k % S`
(the unique slice `i = k % S` writes it). -/
theorem generate_table_getD (permOf : Nat → Nat → List Nat) (r X Y S : Nat)
    (hS : 1 ≤ S) (hperm : (permOf 0 (X * Y)).Perm (List.range (X * Y)))
    (q : Nat) (hq : q < X * Y) :
    (generate_table permOf r X Y S).getD q 0
      = ((permOf 0 (X * Y)).indexOf q) % S := by
  have hlen : (permOf 0 (X * Y)).length = X * Y := by
    rw [hperm.length_eq, List.length_range]
  have hnd : (permOf 0 (X * Y)).Nodup := hperm.nodup_iff.mpr (List.nodup_range _)
  have hqmem : q ∈ permOf 0 (X * Y) := hperm.mem_iff.mpr (List.mem_range.mpr hq)
  have hkn : (permOf 0 (X * Y)).indexOf q < X * Y := by
    have h := List.indexOf_lt_length.mpr hqmem
    rw [hlen] at h
    exact h
  have hgetk : (permOf 0 (X * Y)).getD ((permOf 0 (X * Y)).indexOf q) 0 = q := by
    rw [List.getD_eq_getElem _ _ (by rw [hlen]; exact hkn)]
    exact List.getElem_indexOf _
  have hmem_slice : ∀ i : Nat,
      (q ∈ everyNth ((permOf 0 (X * Y)).drop i) S
        ↔ ∃ m, i + m * S < X * Y ∧ (permOf 0 (X * Y)).getD (i + m * S) 0 = q) := by
    intro i
    rw [mem_everyNth_iff hS]
    constructor
    · rintro ⟨m, hms, hget⟩
      rw [List.length_drop, hlen] at hms
      rw [getD_drop] at hget
      exact ⟨m, by omega, hget⟩
    · rintro ⟨m, hms, hget⟩
      refine ⟨m, ?_, ?_⟩
      · rw [List.length_drop, hlen]; omega
      · rw [getD_drop]; exact hget
  have hinj : ∀ a b : Nat, a < X * Y → b < X * Y →
      (permOf 0 (X * Y)).getD a 0 = (permOf 0 (X * Y)).getD b 0 → a = b := by
    intro a b ha hb hab
    rw [List.getD_eq_getElem _ _ (by rw [hlen]; exact ha),
        List.getD_eq_getElem _ _ (by rw [hlen]; exact hb)] at hab
    exact (hnd.getElem_inj_iff).mp hab
  have hpred : ∀ i : Nat, i < S →
      ((q ∈ everyNth ((permOf 0 (X * Y)).drop i) S)
        ↔ i = ((permOf 0 (X * Y)).indexOf q) % S) := by
    intro i hi
    rw [hmem_slice i]
    constructor
    · rintro ⟨m, hms, hget⟩
      have heq : i + m * S = (permOf 0 (X * Y)).indexOf q :=
        hinj _ _ hms hkn (hget.trans hgetk.symm)
      rw [← heq, Nat.add_mul_mod_self_right, Nat.mod_eq_of_lt hi]
    · intro hi'
      refine ⟨(permOf 0 (X * Y)).indexOf q / S, ?_, ?_⟩
      · rw [hi', Nat.mod_add_div']
        exact hkn
      · rw [hi', Nat.mod_add_div']
        exact hgetk
  have hfind : (List.range S).reverse.find?
        (fun i => decide (q ∈ everyNth ((permOf 0 (X * Y)).drop i) S))
      = some (((permOf 0 (X * Y)).indexOf q) % S) := by
    apply find?_unique
    · rw [List.mem_reverse, List.mem_range]
      exact Nat.mod_lt _ (by omega)
    · rw [decide_eq_true_iff]
      exact (hpred _ (Nat.mod_lt _ (by omega))).mpr rfl
    · intro y hy hpy
      rw [List.mem_reverse, List.mem_range] at hy
      rw [decide_eq_true_iff] at hpy
      exact (hpred y hy).mp hpy
  have hmain := outer_foldl_getD (fun i => everyNth ((permOf 0 (X * Y)).drop i) S)
    (List.range S) (List.replicate (X * Y) 0) q
    (by rw [List.length_replicate]; exact hq)
  rw [show (generate_table permOf r X Y S).getD q 0
        = ((List.range S).foldl
            (fun table i => (everyNth ((permOf 0 (X * Y)).drop i) S).foldl
                (fun t p => t.set p i) table)
            (List.replicate (X * Y) 0)).getD q 0 from rfl]
  rw [hmain, hfind]
  rfl

theorem generate_table_eq_map (permOf : Nat → Nat → List Nat) (r X Y S : Nat)
    (hS : 1 ≤ S) (hperm : (permOf 0 (X * Y)).Perm (List.range (X * Y))) :
    generate_table permOf r X Y S
      = (List.range (X * Y)).map (fun q => ((permOf 0 (X * Y)).indexOf q) % S) := by
  apply List.ext_getElem
  · rw [generate_table_length, List.length_map, List.length_range]
  · intro q h1 h2
    have hq : q < X * Y := by rw [generate_table_length] at h1; exact h1
    have hgd := generate_table_getD permOf r X Y S hS hperm q hq
    rw [List.getD_eq_getElem _ _ h1] at hgd
    rw [hgd, List.getElem_map, List.getElem_range]

theorem count_residue_transfer (permOf : Nat → Nat → List Nat) (X Y S : Nat)
    (hperm : (permOf 0 (X * Y)).Perm (List.range (X * Y))) (i : Nat) :
    ((List.range (X * Y)).map (fun q => ((permOf 0 (X * Y)).indexOf q) % S)).count i
      = ((List.range (X * Y)).map (fun k => k % S)).count i := by
  have hnd : (permOf 0 (X * Y)).Nodup := hperm.nodup_iff.mpr (List.nodup_range _)
  have h1 := (hperm.map (fun q => ((permOf 0 (X * Y)).indexOf q) % S)).count_eq i
  rw [← h1]
  have h2 : (permOf 0 (X * Y)).map (fun q => ((permOf 0 (X * Y)).indexOf q) % S)
      = (List.range (X * Y)).map (fun k => k % S) := by
    apply List.ext_getElem
    · rw [List.length_map, hperm.length_eq, List.length_range, List.length_map,
          List.length_range]
    · intro k hk1 hk2
      rw [List.getElem_map, List.getElem_map, List.getElem_range]
      congr 1
      exact List.indexOf_getElem hnd k _
  rw [h2]

theorem count_mod_range (S : Nat) (hS : 1 ≤ S) (i : Nat) (hi : i < S) :
    ∀ n : Nat, ((List.range n).map (fun k => k % S)).count i = (n - i + S - 1) / S := by
  intro n
  induction n with
  | zero =>
    simp only [List.range_zero, List.map_nil, List.count_nil]
    rw [Nat.div_eq_of_lt (by omega)]
  | succ n ih =>
    rw [List.range_succ, List.map_append, List.count_append, ih]
    have hsingle : (List.map (fun k => k % S) [n]).count i
        = if n % S = i then 1 else 0 := by
      simp only [List.map_cons, List.map_nil, List.count_cons, List.count_nil]
      by_cases h : n % S = i
      · simp [h]
      · simp [h]
    rw [hsingle]
    by_cases hc : i ≤ n
    · by_cases hdvd : S ∣ (n - i)
      · have hmod : n % S = i := by
          obtain ⟨c, hc'⟩ := hdvd
          have hn : n = S * c + i := by omega
          rw [hn, Nat.mul_add_mod, Nat.mod_eq_of_lt hi]
        rw [if_pos hmod]
        obtain ⟨c, hc'⟩ := hdvd
        have e1 : n + 1 - i + S - 1 = S * c + S := by omega
        have e2 : n - i + S - 1 = S * c + (S - 1) := by omega
        rw [e1, e2]
        rw [show S * c + S = S * c + S * 1 by ring, ← Nat.mul_add,
            Nat.mul_div_cancel_left _ (by omega : 0 < S)]
        rw [Nat.mul_add_div (by omega : 0 < S), Nat.div_eq_of_lt (by omega)]
      · have hmod : ¬ (n % S = i) := by
          intro h
          apply hdvd
          refine ⟨n / S, ?_⟩
          have hdm := Nat.div_add_mod n S
          omega
        rw [if_neg hmod]
        have e1 : n + 1 - i + S - 1 = (n - i + S - 1) + 1 := by omega
        rw [e1, Nat.succ_div]
        have hnd : ¬ (S ∣ (n - i + S - 1) + 1) := by
          intro hd
          apply hdvd
          have e2 : (n - i + S - 1) + 1 = (n - i) + S := by omega
          rw [e2] at hd
          have := Nat.dvd_sub' hd (dvd_refl S)
          have e3 : (n - i) + S - S = n - i := by omega
          rw [e3] at this
          exact this
        rw [if_neg hnd]
    · have hmod : ¬ (n % S = i) := by
        have hnS : n < S := by omega
        rw [Nat.mod_eq_of_lt hnS]
        omega
      rw [if_neg hmod]
      have e1 : n + 1 - i + S - 1 = S - 1 := by omega
      have e2 : n - i + S - 1 = S - 1 := by omega
      rw [e1, e2]
      omega

theorem resid_count_bounds (S n i : Nat) (hS : 1 ≤ S) (hi : i < S) :
    (n - i + S - 1) / S = n / S ∨ (n - i + S - 1) / S = n / S + 1 := by
  by_cases hc : i ≤ n
  · have h1 : n / S ≤ (n - i + S - 1) / S := Nat.div_le_div_right (by omega)
    have h2 : (n - i + S - 1) / S ≤ (n + S - 1) / S := Nat.div_le_div_right (by omega)
    have h3 : (n + S - 1) / S ≤ n / S + 1 := by
      by_cases hn : n = 0
      · subst hn
        rw [Nat.div_eq_of_lt (by omega), Nat.zero_div]
        omega
      · have e : n + S - 1 = (n - 1) + S := by omega
        rw [e, Nat.add_div_right _ (by omega)]
        have h4 : (n - 1) / S ≤ n / S := Nat.div_le_div_right (by omega)
        omega
    omega
  · left
    have e1 : n - i + S - 1 = S - 1 := by omega
    rw [e1, Nat.div_eq_of_lt (by omega), Nat.div_eq_of_lt (by omega)]

theorem sum_counts_of_lt (S : Nat) :
    ∀ l : List Nat, (∀ x ∈ l, x < S) →
      (∑ i in Finset.range S, l.count i) = l.length := by
  intro l
  induction l with
  | nil => intro _; simp
  | cons x t ih =>
    intro h
    have hx : x < S := h x (List.mem_cons_self x t)
    have ht : ∀ y ∈ t, y < S := fun y hy => h y (List.mem_cons_of_mem x hy)
    simp only [List.count_cons, List.length_cons]
    rw [Finset.sum_add_distrib, ih ht]
    congr 1
    simp only [beq_iff_eq]
    rw [Finset.sum_ite_eq (Finset.range S) x (fun _ => (1 : Nat))]
    rw [if_pos (Finset.mem_range.mpr hx)]

/-- **C6.** For every `X, Y ≥ 0` and strategy count `S ≥ 1`, and every model
`permOf` of the seeded permutation (any permutation of the `X·Y` linear
indices), the grid produced by `generate_table` has per-strategy counts
summing to `X·Y`, each count being `⌊X·Y/S⌋` or `⌊X·Y/S⌋ + 1` (strategy `i`
receives every `S`-th index of the permutation starting at offset `i`), so
each count is within 1 of `X·Y/S`. -/
theorem generate_table_strategy_counts (permOf : Nat → Nat → List Nat) (r X Y S : Nat)
    (hS : 1 ≤ S) (hperm : (permOf 0 (X * Y)).Perm (List.range (X * Y))) :
    (∑ i in Finset.range S, (generate_table permOf r X Y S).count i) = X * Y
      ∧ ∀ i, i < S →
          (generate_table permOf r X Y S).count i = (X * Y) / S
            ∨ (generate_table permOf r X Y S).count i = (X * Y) / S + 1 := by
  have hmap := generate_table_eq_map permOf r X Y S hS hperm
  constructor
  · rw [show X * Y = (generate_table permOf r X Y S).length from
        (generate_table_length permOf r X Y S).symm]
    apply sum_counts_of_lt
    intro x hx
    rw [hmap] at hx
    rcases List.mem_map.mp hx with ⟨q, _, rfl⟩
    exact Nat.mod_lt _ (by omega)
  · intro i hi
    rw [hmap, count_residue_transfer permOf X Y S hperm i,
        count_mod_range S hS i hi (X * Y)]
    exact resid_count_bounds S (X * Y) i hS hi

/-- Witness for C6: the identity permutation model on a 3×1 board with 2
strategies (counts 2 and 1). -/
theorem generate_table_strategy_counts_witness :
    (1 ≤ 2 ∧ (((fun _ n => List.range n) : Nat → Nat → List Nat) 0 (3 * 1)).Perm
        (List.range (3 * 1)))
      ∧ ((∑ i in Finset.range 2,
            (generate_table (fun _ n => List.range n) 0 3 1 2).count i) = 3 * 1
          ∧ ∀ i, i < 2 →
              (generate_table (fun _ n => List.range n) 0 3 1 2).count i = (3 * 1) / 2
                ∨ (generate_table (fun _ n => List.range n) 0 3 1 2).count i
                    = (3 * 1) / 2 + 1) :=
  ⟨⟨by decide, List.Perm.refl _⟩,
   generate_table_strategy_counts (fun _ n => List.range n) 0 3 1 2 (by decide)
     (List.Perm.refl _)⟩

/-! ## The sweep driver (β loop) -/

/-- `reshape(size_x, size_y)` of a flattened board, as a function grid
(row-major). -/
def toFun (Y : Nat) (g : List Nat) : Int → Int → Nat :=
  fun i j => g.getD (i.toNat * Y + j.toNat) 0

/-- The 2-strategy payoff matrix `[[1-beta, 2], [0, 1]]` of the sweep cells,
as a lookup function. -/
def payoff2 (beta : ℚ) : Nat → Nat → ℚ :=
  fun a b => (([[1 - beta, 2], [0, 1]]).getD a []).getD b 0

/-- One β run of the sweep loop (notebook cell 17): build the initial board
with `generate_table`, then iterate `G` generations (`range(G)` of Python is
empty for negative `G`, hence `G.toNat`), appending each new board to the
history whose first entry is the initial board.  `pickG n` is the tie-break
randomness of generation `n`. -/
def run_one (permOf : Nat → Nat → List Nat) (pickG : Nat → Nat → Nat) (rngState : Nat)
    (beta : ℚ) (X Y : Nat) (G : Int)
    (nf : Int → Int → Int → Int → (Int × Int) × List (Int × Int)) :
    List (Int → Int → Nat) :=
  let table := toFun Y (generate_table permOf rngState X Y 2)
  ((List.range G.toNat).foldl
      (fun acc n =>
        let t := iterate (pickG n) acc.2 (payoff2 beta) nf X Y
        (acc.1 ++ [t], t))
      ([table], table)).1

/-- The sweep driver: one `run_one` per β value, in order.  `pickOf m` is the
randomness stream of run `m` and `states m` the (irrelevant, immediately
reseeded) incoming global random state of run `m`. -/
def sweepDriver (permOf : Nat → Nat → List Nat) (pickOf : Nat → Nat → Nat → Nat)
    (states : Nat → Nat) (beta_list : List ℚ) (X Y : Nat) (G : Int)
    (nf : Int → Int → Int → Int → (Int × Int) × List (Int × Int)) :
    List (List (Int → Int → Nat)) :=
  (List.range beta_list.length).map
    (fun m => run_one permOf (pickOf m) (states m) (beta_list.getD m 0) X Y G nf)

theorem head_append_of_ne_nil {α : Type} (l1 l2 : List α) (h : l1 ≠ []) :
    (l1 ++ l2).head? = l1.head? := by
  match l1 with
  | [] => exact absurd rfl h
  | x :: t => rfl

/-- The history-building fold keeps the first history entry. -/
theorem run_one_head (permOf : Nat → Nat → List Nat) (pickG : Nat → Nat → Nat)
    (rngState : Nat) (beta : ℚ) (X Y : Nat) (G : Int)
    (nf : Int → Int → Int → Int → (Int × Int) × List (Int × Int)) :
    (run_one permOf pickG rngState beta X Y G nf).head?
      = some (toFun Y (generate_table permOf rngState X Y 2)) := by
  have hfold : ∀ (l : List Nat) (acc : List (Int → Int → Nat) × (Int → Int → Nat)),
      acc.1 ≠ [] →
      ((l.foldl (fun acc n =>
          (acc.1 ++ [iterate (pickG n) acc.2 (payoff2 beta) nf X Y],
           iterate (pickG n) acc.2 (payoff2 beta) nf X Y)) acc).1).head?
        = acc.1.head? := by
    intro l
    induction l with
    | nil => intro acc _; rfl
    | cons n t ih =>
      intro acc hacc
      rw [List.foldl_cons]
      rw [ih _ (by simp)]
      exact head_append_of_ne_nil _ _ hacc
  exact hfold (List.range G.toNat) ([toFun Y (generate_table permOf rngState X Y 2)],
    toFun Y (generate_table permOf rngState X Y 2)) (by simp)

/-- **C9.** Grid initialisation is deterministic and seed-independent at the
call interface: `generate_table` unconditionally overwrites the incoming
global random state with the constant seed `0`, so two invocations with the
same `(X, Y, S)` return identical grids regardless of the incoming states;
consequently every β run of every sweep (even sweeps run with different
incoming random states) starts from the same initial configuration. -/
theorem generate_table_seed_independent (permOf : Nat → Nat → List Nat)
    (s1 s2 : Nat) (X Y S : Nat) (pickOf : Nat → Nat → Nat → Nat)
    (states1 states2 : Nat → Nat) (beta_list : List ℚ) (G : Int)
    (nf : Int → Int → Int → Int → (Int × Int) × List (Int × Int))
    (m1 m2 : Nat) (hm1 : m1 < beta_list.length) (hm2 : m2 < beta_list.length) :
    generate_table permOf s1 X Y S = generate_table permOf s2 X Y S
      ∧ ((sweepDriver permOf pickOf states1 beta_list X Y G nf).getD m1 []).head?
          = ((sweepDriver permOf pickOf states2 beta_list X Y G nf).getD m2 []).head? := by
  refine ⟨rfl, ?_⟩
  have hget : ∀ (states : Nat → Nat) (m : Nat), m < beta_list.length →
      (sweepDriver permOf pickOf states beta_list X Y G nf).getD m []
        = run_one permOf (pickOf m) (states m) (beta_list.getD m 0) X Y G nf := by
    intro states m hm
    unfold sweepDriver
    rw [List.getD_eq_getElem _ _ (by rw [List.length_map, List.length_range]; exact hm)]
    rw [List.getElem_map, List.getElem_range]
  rw [hget states1 m1 hm1, hget states2 m2 hm2, run_one_head, run_one_head]
  rfl

/-- Witness for C9 on the β list `[1, 2]`, comparing runs 0 and 1 with two
different incoming random-state assignments. -/
theorem generate_table_seed_independent_witness :
    (0 < ([(1 : ℚ), 2]).length ∧ 1 < ([(1 : ℚ), 2]).length)
      ∧ (generate_table (fun _ n => List.range n) 3 2 2 2
            = generate_table (fun _ n => List.range n) 7 2 2 2
          ∧ ((sweepDriver (fun _ n => List.range n) (fun _ _ _ => 0) (fun _ => 5)
                [(1 : ℚ), 2] 2 2 1 moore_neighbourhood).getD 0 []).head?
              = ((sweepDriver (fun _ n => List.range n) (fun _ _ _ => 0) (fun _ => 9)
                  [(1 : ℚ), 2] 2 2 1 moore_neighbourhood).getD 1 []).head?) :=
  ⟨⟨by decide, by decide⟩,
   generate_table_seed_independent (fun _ n => List.range n) 3 7 2 2 2 (fun _ _ _ => 0)
     (fun _ => 5) (fun _ => 9) [(1 : ℚ), 2] 1 moore_neighbourhood 0 1
     (by decide) (by decide)⟩

/-- **C10, counterexample.** With an empty β list the sweep driver runs no
iterations and returns an empty result without raising any error — the
engine does not fail with a configuration error on an empty β list (nor does
it validate anything else up front). -/
theorem sweep_empty_beta_list_succeeds :
    sweepDriver (fun _ n => List.range n) (fun _ _ _ => 0) (fun _ => 0) [] 70 70 175
        moore_neighbourhood = [] := rfl

/-- **C10, amended.** The engine performs no up-front configuration
validation at all: an empty β list yields a successful empty sweep; a grid
dimension of zero yields an empty grid without error; a negative generation
count runs zero generations and returns a history holding only the initial
grid.  (A payoff-matrix/strategy-count mismatch is likewise never checked
before the generations run; it could only surface as an indexing fault
inside a generation step.  A *negative* grid dimension is outside this
embedding's `Nat`-typed dimensions; in the source it would abort before any
generation, but as a `ValueError` raised inside numpy's array allocation,
not as an engine configuration check.) -/
theorem engine_performs_no_validation (permOf : Nat → Nat → List Nat)
    (pickOf : Nat → Nat → Nat → Nat) (states : Nat → Nat) (X Y : Nat) (G : Int)
    (nf : Int → Int → Int → Int → (Int × Int) × List (Int × Int))
    (r S : Nat) (beta : ℚ) (pickG : Nat → Nat → Nat) :
    sweepDriver permOf pickOf states [] X Y G nf = []
      ∧ generate_table permOf r 0 Y S = []
      ∧ (G < 0 → run_one permOf pickG r beta X Y G nf
            = [toFun Y (generate_table permOf r X Y 2)]) := by
  refine ⟨rfl, ?_, ?_⟩
  · apply List.length_eq_zero.mp
    rw [generate_table_length]
    exact Nat.zero_mul Y
  · intro hG
    have h0 : G.toNat = 0 := Int.toNat_of_nonpos (le_of_lt hG)
    unfold run_one
    rw [h0]
    rfl

/-- Witness for the amended C10 theorem at `G = -1`. -/
theorem engine_performs_no_validation_witness :
    sweepDriver (fun _ n => List.range n) (fun _ _ _ => 0) (fun _ => 0) [] 3 3 (-1)
        moore_neighbourhood = []
      ∧ generate_table (fun _ n => List.range n) 0 0 3 2 = []
      ∧ ((-1 : Int) < 0
          ∧ run_one (fun _ n => List.range n) (fun _ _ => 0) 0 (1 : ℚ) 3 3 (-1)
              moore_neighbourhood
            = [toFun 3 (generate_table (fun _ n => List.range n) 0 3 3 2)]) :=
  ⟨(engine_performs_no_validation (fun _ n => List.range n) (fun _ _ _ => 0) (fun _ => 0)
      3 3 (-1) moore_neighbourhood 0 2 1 (fun _ _ => 0)).1,
   (engine_performs_no_validation (fun _ n => List.range n) (fun _ _ _ => 0) (fun _ => 0)
      3 3 (-1) moore_neighbourhood 0 2 1 (fun _ _ => 0)).2.1,
   by decide,
   (engine_performs_no_validation (fun _ n => List.range n) (fun _ _ _ => 0) (fun _ => 0)
      3 3 (-1) moore_neighbourhood 0 2 1 (fun _ _ => 0)).2.2 (by decide)⟩

/-! ## Statistics aggregation (`hawk_fractions`) -/

/-- The largest label present in a flattened grid (`0` for an empty grid). -/
def maxNat (g : List Nat) : Nat := g.foldr max 0

/-- The sorted list of distinct values present in `g`: the first component of
`np.unique(g, return_counts=True)`. -/
def uniqueVals (g : List Nat) : List Nat :=
  (List.range (maxNat g + 1)).filter (fun v => decide (v ∈ g))

/-- One entry of the 2-strategy aggregation (notebook cell 19):
`uniq, counts = np.unique(grid, return_counts=True)` followed by
`counts[0] / counts.sum()`. -/
def hawk_fraction_entry (g : List Nat) : ℚ :=
  let counts := (uniqueVals g).map (fun v => g.count v)
  ((counts.getD 0 0 : Nat) : ℚ) / ((counts.sum : Nat) : ℚ)

/-- The 2-strategy `hawk_fractions` table row for one run: entry `l0`
(`l = l0 + 1` in the source) aggregates `table_m[k][-l]`, i.e. the history
entry at index `length - l` — the final `L` generations. -/
def hawk_fractions2 (hist : List (List Nat)) (L : Nat) : List ℚ :=
  (List.range L).map
    (fun l0 => hawk_fraction_entry (hist.getD (hist.length - (l0 + 1)) []))

/-- The 3-strategy aggregation (notebook cell 36) for strategy `s`: entry
`l0` (`l = l0 + 1` in the source) is `(table_m[k,l] == s).sum() / (X*Y)`,
taken from the history entry at index `l = l0 + 1` — the *first* `L`
generations after the initial state, not the last `L`. -/
def strat_fractions3 (s : Nat) (XY : Nat) (hist : List (List Nat)) (L : Nat) : List ℚ :=
  (List.range L).map
    (fun l0 => (((hist.getD (l0 + 1) []).count s : Nat) : ℚ) / ((XY : Nat) : ℚ))

theorem le_maxNat (g : List Nat) : ∀ x ∈ g, x ≤ maxNat g := by
  induction g with
  | nil => intro x hx; exact absurd hx (List.not_mem_nil x)
  | cons y t ih =>
    intro x hx
    rcases List.mem_cons.mp hx with h | h
    · subst h
      exact le_max_left x (maxNat t)
    · exact le_trans (ih x h) (le_max_right y (maxNat t))

theorem mem_uniqueVals_iff (g : List Nat) (v : Nat) : v ∈ uniqueVals g ↔ v ∈ g := by
  unfold uniqueVals
  rw [List.mem_filter, List.mem_range]
  constructor
  · intro h
    exact of_decide_eq_true h.2
  · intro h
    exact ⟨by have := le_maxNat g v h; omega, decide_eq_true h⟩

theorem uniqueVals_nodup (g : List Nat) : (uniqueVals g).Nodup :=
  (List.nodup_range _).filter _

/-- The counts produced by `np.unique` sum to the number of cells. -/
theorem uniqueVals_counts_sum (g : List Nat) :
    ((uniqueVals g).map (fun v => g.count v)).sum = g.length := by
  have hperm : (uniqueVals g).Perm g.dedup := by
    rw [List.perm_ext_iff_of_nodup (uniqueVals_nodup g) (List.nodup_dedup g)]
    intro a
    rw [mem_uniqueVals_iff, List.mem_dedup]
  have hmap := hperm.map (fun v => g.count v)
  rw [hmap.sum_eq]
  exact List.sum_map_count_dedup_eq_length g

/-- When strategy `0` is present, `np.unique` lists it first, so `counts[0]`
is its count and the reported ratio is the true Hawk fraction. -/
theorem hawk_fraction_entry_of_zero_mem (g : List Nat) (h0 : 0 ∈ g) :
    hawk_fraction_entry g = (g.count 0 : ℚ) / (g.length : ℚ) := by
  have hhead : uniqueVals g
      = 0 :: ((List.range (maxNat g)).map Nat.succ).filter (fun v => decide (v ∈ g)) := by
    unfold uniqueVals
    rw [List.range_succ_eq_map, List.filter_cons]
    rw [if_pos (by simpa using h0)]
  unfold hawk_fraction_entry
  show ((((uniqueVals g).map (fun v => List.count v g)).getD 0 0 : Nat) : ℚ)
      / ((((uniqueVals g).map (fun v => List.count v g)).sum : Nat) : ℚ)
    = (g.count 0 : ℚ) / (g.length : ℚ)
  rw [uniqueVals_counts_sum g, hhead]
  rfl

/-- **C2, counterexample.** On a history whose last grid contains no cell
with strategy `0`, the 2-strategy aggregation reports `counts[0] /
counts.sum() = 1` for the window entry — the count of the *smallest present*
label (here `1`) — although the fraction of cells holding strategy `0`
is `0`. -/
theorem hawk_fraction_not_strategy_zero :
    hawk_fractions2 [[0, 0, 0, 0], [1, 1, 1, 1]] 1 = [1]
      ∧ (((([1, 1, 1, 1] : List Nat).count 0 : Nat) : ℚ) / (4 : ℚ) = 0) := by
  constructor
  · have h : hawk_fractions2 [[0, 0, 0, 0], [1, 1, 1, 1]] 1
        = [((4 : Nat) : ℚ) / ((4 : Nat) : ℚ)] := rfl
    rw [h]
    norm_num
  · have h : (([1, 1, 1, 1] : List Nat).count 0) = 0 := rfl
    rw [h]
    norm_num

/-- **C2, amended.** For every run history and window length `L`: the
2-strategy aggregation takes the *final* `L` history entries (entry `l0`
uses index `length - (l0+1)`), and its reported value is
`counts[0]/counts.sum()` from `np.unique`, which equals the fraction of
cells holding strategy `0` exactly when some cell holds strategy `0` (when
strategy 0 is absent, `counts[0]` counts the smallest label present
instead); the 3-strategy aggregation reports, for each strategy `s`, the
true count of cells equal to `s` divided by `X·Y` even when `s` is absent,
but takes the history entries at indices `1..L` — the first `L` generations
after the initial state, not the final `L`. -/
theorem hawk_fractions_characterisation (hist : List (List Nat)) (L : Nat)
    (s XY : Nat) (l0 : Nat) (hl0 : l0 < L) :
    (0 ∈ hist.getD (hist.length - (l0 + 1)) [] →
        (hawk_fractions2 hist L).getD l0 0
          = ((hist.getD (hist.length - (l0 + 1)) []).count 0 : ℚ)
              / ((hist.getD (hist.length - (l0 + 1)) []).length : ℚ))
      ∧ (strat_fractions3 s XY hist L).getD l0 0
          = ((hist.getD (l0 + 1) []).count s : ℚ) / (XY : ℚ) := by
  have hget2 : (hawk_fractions2 hist L).getD l0 0
      = hawk_fraction_entry (hist.getD (hist.length - (l0 + 1)) []) := by
    unfold hawk_fractions2
    rw [List.getD_eq_getElem _ _ (by rw [List.length_map, List.length_range]; exact hl0)]
    rw [List.getElem_map, List.getElem_range]
  have hget3 : (strat_fractions3 s XY hist L).getD l0 0
      = (((hist.getD (l0 + 1) []).count s : Nat) : ℚ) / ((XY : Nat) : ℚ) := by
    unfold strat_fractions3
    rw [List.getD_eq_getElem _ _ (by rw [List.length_map, List.length_range]; exact hl0)]
    rw [List.getElem_map, List.getElem_range]
  constructor
  · intro h0
    rw [hget2, hawk_fraction_entry_of_zero_mem _ h0]
  · rw [hget3]

/-- Witness for the amended C2 theorem on a 2-entry history. -/
theorem hawk_fractions_characterisation_witness :
    0 < 1
      ∧ ((0 ∈ ([[0], [0]] : List (List Nat)).getD (([[0], [0]] : List (List Nat)).length - (0 + 1)) [] →
            (hawk_fractions2 [[0], [0]] 1).getD 0 0
              = ((([[0], [0]] : List (List Nat)).getD (([[0], [0]] : List (List Nat)).length - (0 + 1)) []).count 0 : ℚ)
                  / ((([[0], [0]] : List (List Nat)).getD (([[0], [0]] : List (List Nat)).length - (0 + 1)) []).length : ℚ))
          ∧ (strat_fractions3 0 1 [[0], [0]] 1).getD 0 0
              = ((([[0], [0]] : List (List Nat)).getD (0 + 1) []).count 0 : ℚ) / ((1 : Nat) : ℚ)) :=
  ⟨by decide, hawk_fractions_characterisation [[0], [0]] 1 0 1 0 (by decide)⟩
